import Mathlib

/-!
Verification of the dependency-graph resolution and service-orchestration
layer of `fig/project.py`.

The Python source is shallowly embedded: service declarations (the dicts fed
to `sort_service_dicts`) become the structure `SDict`; the topological sort
with its recursive `visit` procedure becomes the fuel-indexed functions
`visitF`/`visitL`/`sortLoop`; resolved services become the inductive
`Service`; the `Project` class becomes the structure `Proj` with its lookup,
closure-expansion and lifecycle-iteration methods.  Exceptions are embedded
as `Except` results.
-/

/-! ## Service declarations and the dependency relation -/

/-- A service declaration as consumed by `sort_service_dicts`: a dict with a
`name`, an optional list of raw link references and an optional list of raw
volumes-from references (a missing key is the empty list). -/
structure SDict where
  name : String
  links : List String
  volumes_from : List String
deriving DecidableEq, Repr

/-- `link.split(':')[0]`: the part of a raw link reference before the first
colon. -/
def linkName (l : String) : String :=
  String.mk (l.data.takeWhile (fun c => c ≠ ':'))

/-- `get_service_names = lambda links: [link.split(':')[0] for link in links]`. -/
def getServiceNames (links : List String) : List String :=
  links.map linkName

/-- `Dep m n`: declaration `m` references declaration `n`, i.e. `n`'s name
occurs among `m`'s link targets or among `m`'s raw volumes-from entries.
This is the condition by which `sort_service_dicts.visit` computes the
dependents of `n`. -/
def Dep (m n : SDict) : Prop :=
  n.name ∈ getServiceNames m.links ∨ n.name ∈ m.volumes_from

instance (m n : SDict) : Decidable (Dep m n) := by
  unfold Dep; infer_instance

/-- `[m for m in services if (n['name'] in get_service_names(m.get('links', [])))
or (n['name'] in m.get('volumes_from', []))]`. -/
def depsOf (S : List SDict) (n : SDict) : List SDict :=
  S.filter (fun m => decide (Dep m n))

/-! ## The topological sort (`sort_service_dicts`) -/

/-- The `DependencyError`s raised by `sort_service_dicts`, plus a `fuel`
marker used only by the fuel-indexed embedding of the recursion (proved
unreachable below whenever enough fuel is supplied). -/
inductive SortErr where
  | fuel
  | selfLink (name : String)
  | selfVolume (name : String)
  | circular (names : List String)
deriving DecidableEq, Repr

/-- The mutable state of `sort_service_dicts`: the `unmarked` list, the
`temporary_marked` set (modelled as an insertion-ordered duplicate-free
list) and the output being built by prepending. -/
structure SortState where
  unmarked : List SDict
  temp : List String
  output : List SDict
deriving DecidableEq, Repr

/-- `for m in dependents: visit(m)`: apply a visit function `vf` to each
declaration of a list in order, threading the state and propagating the
first error. -/
def visitL (vf : SDict → SortState → Except SortErr SortState) :
    List SDict → SortState → Except SortErr SortState
  | [], s => .ok s
  | m :: ms, s =>
    match vf m s with
    | .error e => .error e
    | .ok s1 => visitL vf ms s1

/-- The recursive `visit(n)` of `sort_service_dicts`, with explicit state
and fuel.  Mirrors the source: a temporary-marked node raises the self-link,
self-volume or generic circular error; an unmarked node is marked, its
dependents are visited, and it is then unmarked and prepended to the
output; any other node is a no-op. -/
def visitF (S : List SDict) : Nat → SDict → SortState → Except SortErr SortState
  | 0, _, _ => .error .fuel
  | f + 1, n, s =>
    if n.name ∈ s.temp then
      if n.name ∈ getServiceNames n.links then .error (.selfLink n.name)
      else if n.name ∈ n.volumes_from then .error (.selfVolume n.name)
      else .error (.circular s.temp)
    else if n ∈ s.unmarked then
      match visitL (visitF S f) (depsOf S n) { s with temp := s.temp ++ [n.name] } with
      | .error e => .error e
      | .ok s1 =>
          .ok { unmarked := s1.unmarked.erase n
                temp := s1.temp.erase n.name
                output := n :: s1.output }
    else .ok s
termination_by structural f _ _ => f

/-- Code-point lexicographic `≤` on character lists: exactly how Python
compares the string sort keys. -/
def lexLe : List Char → List Char → Bool
  | [], _ => true
  | _ :: _, [] => false
  | c :: cs, d :: ds =>
    if c.toNat < d.toNat then true
    else if d.toNat < c.toNat then false
    else lexLe cs ds

/-- `a.name <= b.name`, by code points. -/
def nameLe (a b : SDict) : Prop :=
  lexLe a.name.data b.name.data = true

instance (a b : SDict) : Decidable (nameLe a b) := by
  unfold nameLe; infer_instance

/-- `sorted(services, key=itemgetter('name'))`: the deterministic name-sorted
baseline.  Python's `sorted` is a stable sort by the `name` key; any stable
sort computes the same list, so it is embedded as a stable insertion sort. -/
def sortByName (S : List SDict) : List SDict :=
  List.insertionSort nameLe S

/-- `while unmarked: visit(unmarked[-1])`, with fuel for the while loop. -/
def sortLoop (S : List SDict) : Nat → SortState → Except SortErr (List SDict)
  | 0, _ => .error .fuel
  | f + 1, s =>
    match s.unmarked.getLast? with
    | none => .ok s.output
    | some n =>
      match visitF S (s.unmarked.length + 1) n s with
      | .error e => .error e
      | .ok s1 => sortLoop S f s1

/-- `sort_service_dicts(services)`: topological sort of service declarations
(Cormen/Tarjan-style DFS), returning the sorted list or the
`DependencyError` the source raises. -/
def sort_service_dicts (S : List SDict) : Except SortErr (List SDict) :=
  sortLoop S (S.length + 1) { unmarked := sortByName S, temp := [], output := [] }

/-! ## Resolved services and the `Project` registry -/

/-- Modelled from the spec: the `Service` capability of `fig/service.py` is
not under `src/`; per the spec it is identified by a name and "exposes its
own declared links for closure expansion"
(`getLinkedServices() -> sequence<Service>`).  Since links are resolved
against previously-constructed services, the reference structure is a
finite dag, embedded as a tree-shaped inductive. -/
inductive Service where
  | mk (name : String) (linked : List Service)

/-- The service's name. -/
def Service.name : Service → String
  | .mk n _ => n

/-- `service.get_linked_services()` (modelled from the spec: the linked
services of a service, in declared order). -/
def Service.get_linked_services : Service → List Service
  | .mk _ ls => ls

mutual

/-- Decidable structural equality on services (the equality used to embed
Python's object comparison in `s not in uniques`: distinct services of one
registry are distinct values). -/
def Service.decEq : (a b : Service) → Decidable (a = b)
  | .mk n ls, .mk m ms =>
    match String.decEq n m with
    | isTrue h1 =>
      match Service.decEqList ls ms with
      | isTrue h2 => isTrue (by rw [h1, h2])
      | isFalse h2 => isFalse (by intro h; cases h; exact h2 rfl)
    | isFalse h1 => isFalse (by intro h; cases h; exact h1 rfl)
termination_by structural a _ => a

def Service.decEqList : (as bs : List Service) → Decidable (as = bs)
  | [], [] => isTrue rfl
  | [], _ :: _ => isFalse (by intro h; cases h)
  | _ :: _, [] => isFalse (by intro h; cases h)
  | a :: as, b :: bs =>
    match Service.decEq a b with
    | isTrue h1 =>
      match Service.decEqList as bs with
      | isTrue h2 => isTrue (by rw [h1, h2])
      | isFalse h2 => isFalse (by intro h; cases h; exact h2 rfl)
    | isFalse h1 => isFalse (by intro h; cases h; exact h1 rfl)
termination_by structural as _ => as

end

instance : DecidableEq Service := Service.decEq

/-- The `Project` class: name, ordered resolved services, and the
namespace (`self.namespace`; named `nspace` here because `namespace` is a
Lean keyword).  The runtime client is kept outside the structure and passed
to the operations that consume it. -/
structure Project where
  name : String
  services : List Service
  nspace : String

/-- `Project.__init__`: `self.namespace = namespace or name` (a `None` or
empty namespace argument falls back to the project name). -/
def Project.make (name : String) (services : List Service)
    (ns : Option String) : Project :=
  { name := name
    services := services
    nspace :=
      match ns with
      | none => name
      | some s => if s = "" then name else s }

/-- `name.rsplit('_', 1)` restricted to the underscore separator: `none`
when the string contains no underscore (Python's `'_' in name` false),
otherwise the characters before and after the last underscore. -/
def rsplitUnderscore : List Char → Option (List Char × List Char)
  | [] => none
  | c :: cs =>
    match rsplitUnderscore cs with
    | some (p, s) => some (c :: p, s)
    | none => if c = '_' then some ([], cs) else none

/-- `Project.get_service(name)`: namespace-aware lookup of a single service;
the error value carries the requested name (`NoSuchService(name)`). -/
def Project.get_service (p : Project) (key : String) : Except String Service :=
  let pn_sn : String × String :=
    match rsplitUnderscore key.data with
    | some (pr, sn) =>
      let candidate := String.mk pr
      if candidate ≠ p.nspace then (p.nspace ++ candidate, String.mk sn)
      else (candidate, String.mk sn)
    | none => (p.name, key)
  if pn_sn.1 = p.name then
    match p.services.find? (fun s => s.name == pn_sn.2) with
    | some s => .ok s
    | none => .error key
  else .error key

mutual

/-- `_add_linked_services(service)` from `Project.get_services`: the
depth-first closure of a service's links, each link target's closure placed
before the service itself. -/
def addLinked : Service → List Service
  | .mk n ls =>
    if ls.isEmpty then [Service.mk n ls]
    else addLinkedList ls ++ [Service.mk n ls]

/-- `flat_map(_add_linked_services, linked_services)`. -/
def addLinkedList : List Service → List Service
  | [] => []
  | s :: ss => addLinked s ++ addLinkedList ss

end

/-- The `uniques` loop of `Project.get_services`:
`[uniques.append(s) for s in services if s not in uniques]`. -/
def uniquesLoop {α : Type} [DecidableEq α] : List α → List α → List α
  | [], acc => acc
  | x :: xs, acc =>
    if x ∈ acc then uniquesLoop xs acc else uniquesLoop xs (acc ++ [x])

/-- First-occurrence deduplication, as performed by `Project.get_services`. -/
def dedupFirst {α : Type} [DecidableEq α] (l : List α) : List α :=
  uniquesLoop l []

/-- `Project.get_services(service_names, include_links)`: all services when
no names are given; otherwise the named services in requested order,
link-expanded when asked, deduplicated keeping first occurrences. -/
def Project.get_services (p : Project) (service_names : List String)
    (include_links : Bool) : Except String (List Service) :=
  if service_names.isEmpty then .ok p.services
  else
    match service_names.mapM p.get_service with
    | .error e => .error e
    | .ok svcs =>
      let expanded := if include_links then svcs.flatMap addLinked else svcs
      .ok (dedupFirst expanded)

/-! ## Volumes-from resolution -/

/-- An external container handle, resolved by id/name through the runtime
client. -/
structure Container where
  id : String
deriving DecidableEq, Repr

/-- A volumes-from source: either a managed service or an external
container. -/
inductive VolumeSource where
  | fromService (s : Service)
  | fromContainer (c : Container)

instance : DecidableEq VolumeSource
  | .fromService a, .fromService b =>
    if h : a = b then isTrue (by rw [h]) else isFalse (by intro hh; cases hh; exact h rfl)
  | .fromService _, .fromContainer _ => isFalse (by intro h; cases h)
  | .fromContainer _, .fromService _ => isFalse (by intro h; cases h)
  | .fromContainer a, .fromContainer b =>
    if h : a = b then isTrue (by rw [h]) else isFalse (by intro hh; cases hh; exact h rfl)

/-- The `ConfigurationError` raised by `get_volumes_from`, carrying the
owning service's name and the unresolvable target
(`'Service "%s" mounts volumes from "%s", ...'`). -/
structure VolumesConfigError where
  owner : String
  target : String
deriving DecidableEq, Repr

/-- One iteration of the `get_volumes_from` loop: try the registry first
(`self.get_service`), then the runtime client (`Container.from_id`,
modelled from the spec as an abstract id lookup since `fig/container.py`
is not under `src/`), and raise the configuration error when both fail. -/
def resolveVolumeName (p : Project) (client : String → Option Container)
    (owner : String) (vn : String) : Except VolumesConfigError VolumeSource :=
  match p.get_service vn with
  | .ok s => .ok (.fromService s)
  | .error _ =>
    match client vn with
    | some c => .ok (.fromContainer c)
    | none => .error { owner := owner, target := vn }

/-- `Project.get_volumes_from(service_dict)`: resolve each raw volumes-from
entry of a declaration, in order, short-circuiting on the first failure. -/
def Project.get_volumes_from (p : Project) (client : String → Option Container)
    (sd : SDict) : Except VolumesConfigError (List VolumeSource) :=
  sd.volumes_from.mapM (resolveVolumeName p client sd.name)

/-! ## Lifecycle iteration (`stop` / `kill`) -/

/-- A recorded per-service runtime invocation made by a lifecycle
operation. -/
inductive LifecycleCall where
  | stopCall (name : String)
  | killCall (name : String)
deriving DecidableEq, Repr

/-- `Project.stop`: `for service in reversed(self.get_services(service_names)):
service.stop(**options)` — embedded as the trace of runtime calls the loop
emits, in order. -/
def Project.stop (p : Project) (service_names : List String) :
    Except String (List LifecycleCall) :=
  match p.get_services service_names false with
  | .error e => .error e
  | .ok ss =>
    .ok ((ss.reverse).foldl (fun acc s => acc ++ [LifecycleCall.stopCall s.name]) [])

/-- `Project.kill`, same iteration shape as `Project.stop`. -/
def Project.kill (p : Project) (service_names : List String) :
    Except String (List LifecycleCall) :=
  match p.get_services service_names false with
  | .error e => .error e
  | .ok ss =>
    .ok ((ss.reverse).foldl (fun acc s => acc ++ [LifecycleCall.killCall s.name]) [])

/-! ## Spec-side reference definitions

These definitions follow the wording of the specification (rather than the
source) and are used to state refinement-style claims comparing the two. -/

mutual

/-- Written from the spec's words: "for each requested service (in requested
order), recursively collect its linked services' own closures depth-first
*before* appending the service itself". -/
def specClosure : Service → List Service
  | .mk n ls => specClosureList ls ++ [Service.mk n ls]

/-- The concatenation of the closures of a list of services, in order. -/
def specClosureList : List Service → List Service
  | [] => []
  | s :: ss => specClosure s ++ specClosureList ss

end

/-- Written from the spec's words: "deduplicate the resulting sequence
keeping first occurrence, preserving relative order" — keep each element at
its first occurrence, dropping later duplicates; `seen` holds the elements
already kept. -/
def keepFirsts {α : Type} [DecidableEq α] (seen : List α) : List α → List α
  | [] => []
  | x :: xs => if x ∈ seen then keepFirsts seen xs else x :: keepFirsts (x :: seen) xs

/-- Written from the spec's §4.3 sentence for `getService`, with the final
comparison performed against the registry's *name* (the correction forced
on the claim): split at the last underscore, prepend the namespace when the
candidate differs from it, look up the short name when the resolved
namespace equals the registry's name, and look up the raw key under the
registry's own name when there is no separator. -/
def getServiceSpec (p : Project) (key : String) : Except String Service :=
  match rsplitUnderscore key.data with
  | some (pr, sn) =>
    let candidate := String.mk pr
    let resolved := if candidate = p.nspace then candidate else p.nspace ++ candidate
    if resolved = p.name then
      match p.services.find? (fun s => s.name == String.mk sn) with
      | some s => .ok s
      | none => .error key
    else .error key
  | none =>
    match p.services.find? (fun s => s.name == key) with
    | some s => .ok s
    | none => .error key

/-! ## Concrete fixtures used by witnesses and counterexamples -/

/-- A service with no links. -/
def exDb : Service := .mk "db" []

/-- `web` links to `db`. -/
def exWeb : Service := .mk "web" [exDb]

/-- An unrelated service. -/
def exCache : Service := .mk "cache" []

/-- `console` links to `web`. -/
def exConsole : Service := .mk "console" [exWeb]

/-- The registry of the spec's closure example. -/
def exPrj : Project := Project.make "test" [exWeb, exDb, exCache, exConsole] none

/-- The registry of the spec's dedup example. -/
def exPrjWebDb : Project := Project.make "test" [exWeb, exDb] none

/-- A runtime client resolving exactly the container ids `db` and `cont1`. -/
def exClient : String → Option Container := fun n =>
  if n = "db" then some { id := "cid-db" }
  else if n = "cont1" then some { id := "cid-1" } else none

/-- The repository test's declarations: `web` links `db`, `db` mounts
volumes from `volume`. -/
def figtestDicts : List SDict :=
  [⟨"web", ["db"], []⟩, ⟨"db", [], ["volume"]⟩, ⟨"volume", [], []⟩]

/-- A 3-cycle via links: `a → b → c → a`. -/
def cyc3 : List SDict := [⟨"a", ["b"], []⟩, ⟨"b", ["c"], []⟩, ⟨"c", ["a"], []⟩]

/-- A declaration linking to itself. -/
def selfLinkA : SDict := ⟨"a", ["a"], []⟩

/-- A declaration mounting itself as a volume. -/
def selfVolB : SDict := ⟨"b", [], ["b"]⟩

/-- A self-linking declaration together with an unrelated 2-cycle `b ↔ c`. -/
def mixC4 : List SDict := [⟨"a", ["a"], []⟩, ⟨"b", ["c"], []⟩, ⟨"c", ["b"], []⟩]

/-- Two declarations, neither referencing the other, in non-sorted order. -/
def noDepPair : List SDict := [⟨"b", [], []⟩, ⟨"a", [], []⟩]

/-- Declaration `a`, linking `c` (C7 order-dependence fixture). -/
def sdA : SDict := ⟨"a", ["c"], []⟩

/-- Declaration `b`, linking `c` (C7 order-dependence fixture). -/
def sdB : SDict := ⟨"b", ["c"], []⟩

/-- Declaration `c`, referencing nothing (C7 order-dependence fixture). -/
def sdC : SDict := ⟨"c", [], []⟩


/-! ## Invariants of the topological sort

The following predicates are the proof-side vocabulary for the correctness
and error analysis of `sort_service_dicts`. -/

/-- The dependency relation restricted to a declaration collection `S`:
`a` and `b` are members and `a` references `b`.  A link/volumes-from cycle
of the claims is a `Relation.TransGen (DepS S)` loop. -/
def DepS (S : List SDict) (a b : SDict) : Prop :=
  a ∈ S ∧ b ∈ S ∧ Dep a b

/-- The state invariant of `sort_service_dicts`:
the finalized output and the unmarked list partition `S`; the output is
closed under dependents; no earlier output entry references a later one and
no output entry references itself; every temporary mark is the name of a
still-unmarked declaration. -/
def GoodS (S : List SDict) (s : SortState) : Prop :=
  (s.output ++ s.unmarked).Perm S ∧
  (∀ x ∈ s.output, ∀ m ∈ S, Dep m x → m ∈ s.output) ∧
  s.output.Pairwise (fun a b => ¬ Dep a b) ∧
  (∀ x ∈ s.output, ¬ Dep x x) ∧
  (∀ t ∈ s.temp, ∃ d ∈ s.unmarked, d.name = t)

/-- The active `visit` stack discipline: the temporary marks are the names
of a chain of declarations (`rev`, innermost first) in which each entry
references the next-outer one, and the declaration about to be visited
references the innermost entry. -/
def ChainTo (S : List SDict) (temp : List String) (n : SDict) : Prop :=
  ∃ rev : List SDict,
    rev.map SDict.name = temp.reverse ∧
    (∀ x ∈ rev, x ∈ S) ∧
    rev.Chain' (fun a b => Dep a b) ∧
    (∀ h, rev.head? = some h → Dep n h)

/-- Fuel measure: the number of unmarked occurrences whose name is not yet
temporarily marked.  It strictly decreases when a visit marks a node. -/
def measureS (s : SortState) : Nat :=
  ((s.unmarked.map SDict.name).filter (fun t => decide (t ∉ s.temp))).length

/-- Postcondition of a successful `visit(n)`: the temporary marks are
restored, the unmarked list only shrinks, the output only grows at the
front, the invariant is preserved, `n` ends up finalized, `n` was not
marked on entry, and no declaration marked on entry is finalized. -/
def PostV (S : List SDict) (n : SDict) (s s1 : SortState) : Prop :=
  s1.temp = s.temp ∧
  s1.unmarked.Sublist s.unmarked ∧
  (∃ newOut, s1.output = newOut ++ s.output) ∧
  GoodS S s1 ∧
  n ∈ s1.output ∧
  n.name ∉ s.temp ∧
  (∀ d ∈ s.unmarked, d.name ∈ s.temp → d ∈ s1.unmarked)

/-- Postcondition of a successful dependents loop over `ms`. -/
def PostL (S : List SDict) (ms : List SDict) (s s1 : SortState) : Prop :=
  s1.temp = s.temp ∧
  s1.unmarked.Sublist s.unmarked ∧
  (∃ newOut, s1.output = newOut ++ s.output) ∧
  GoodS S s1 ∧
  (∀ m ∈ ms, m ∈ s1.output ∧ m.name ∉ s.temp) ∧
  (∀ d ∈ s.unmarked, d.name ∈ s.temp → d ∈ s1.unmarked)

/-- Which `DependencyError` the cycle-closing declaration `c` produces:
the self-link error takes precedence, then the self-volume error, then the
generic circular error carrying the in-progress names (all of them names of
declarations of `S`, among them `c`). -/
def ErrAt (S : List SDict) (c : SDict) (e : SortErr) : Prop :=
  (c.name ∈ getServiceNames c.links ∧ e = .selfLink c.name) ∨
  (c.name ∉ getServiceNames c.links ∧ c.name ∈ c.volumes_from ∧ e = .selfVolume c.name) ∨
  (c.name ∉ getServiceNames c.links ∧ c.name ∉ c.volumes_from ∧
    ∃ ts, e = .circular ts ∧ c.name ∈ ts ∧ ∀ t ∈ ts, t ∈ S.map SDict.name)

/-- A `DependencyError` raised by the sort is always produced at a
declaration `c` of `S` through which an actual reference cycle runs. -/
def CycErr (S : List SDict) (e : SortErr) : Prop :=
  ∃ c, c ∈ S ∧ Relation.TransGen (DepS S) c c ∧ ErrAt S c e

/-! ## General-purpose helper lemmas -/

/-- A loop that appends one emitted element per item equals the map. -/
theorem foldl_emit_eq_map {α β : Type} (f : α → β) :
    ∀ (l : List α) (acc : List β),
      l.foldl (fun a s => a ++ [f s]) acc = acc ++ l.map f := by
  intro l
  induction l with
  | nil => intro acc; simp
  | cons x xs ih => intro acc; simp [ih]

/-! ## C6 and C8 -/

/-- C6: for every raw volumes-from name of a declaration, `get_volumes_from`
first attempts resolution as a registry service; only on a `NoSuchService`
miss does it attempt resolution as an external container via the runtime
client; and only when that also fails does it raise a `ConfigurationError`
naming both the owning service and the unresolvable target — so a name that
is both a service and a container id resolves to the service. -/
theorem C6_volumes_from_service_precedence :
    (∀ (p : Project) (client : String → Option Container) (owner vn : String)
      (s : Service) (c : Container),
      p.get_service vn = .ok s → client vn = some c →
      resolveVolumeName p client owner vn = .ok (.fromService s)) ∧
    (∀ (p : Project) (client : String → Option Container) (owner vn : String)
      (e : String) (c : Container),
      p.get_service vn = .error e → client vn = some c →
      resolveVolumeName p client owner vn = .ok (.fromContainer c)) ∧
    (∀ (p : Project) (client : String → Option Container) (owner vn : String)
      (e : String),
      p.get_service vn = .error e → client vn = none →
      resolveVolumeName p client owner vn = .error { owner := owner, target := vn }) ∧
    (∀ (p : Project) (client : String → Option Container) (sd : SDict),
      p.get_volumes_from client sd
        = sd.volumes_from.mapM (resolveVolumeName p client sd.name)) := by
  refine ⟨?_, ?_, ?_, ?_⟩
  · intro p client owner vn s c hs _
    simp [resolveVolumeName, hs]
  · intro p client owner vn e c hs hc
    simp [resolveVolumeName, hs, hc]
  · intro p client owner vn e hs hc
    simp [resolveVolumeName, hs, hc]
  · intro p client sd
    rfl

/-- Witness for C6 at concrete inputs: `db` is both a registry service and a
known container id and resolves to the service; `cont1` is only a container;
`nope` is neither and produces the configuration error naming owner and
target. -/
theorem C6_volumes_from_service_precedence_witness :
    (exPrj.get_service "db" = .ok exDb ∧ exClient "db" = some { id := "cid-db" } ∧
      resolveVolumeName exPrj exClient "web" "db" = .ok (.fromService exDb)) ∧
    resolveVolumeName exPrj exClient "web" "cont1" = .ok (.fromContainer { id := "cid-1" }) ∧
    resolveVolumeName exPrj exClient "web" "nope"
      = .error { owner := "web", target := "nope" } :=
  ⟨⟨rfl, rfl,
    C6_volumes_from_service_precedence.1 exPrj exClient "web" "db" exDb
      { id := "cid-db" } rfl rfl⟩,
   C6_volumes_from_service_precedence.2.1 exPrj exClient "web" "cont1" "cont1"
      { id := "cid-1" } rfl rfl,
   C6_volumes_from_service_precedence.2.2.1 exPrj exClient "web" "nope" "nope" rfl rfl⟩

/-- C8: for every registry and name list, `stop` and `kill` invoke the
per-service operation on exactly the services returned by
`get_services(names)`, in the exact reverse of the order `get_services`
returns them. -/
theorem C8_stop_kill_reverse_order :
    ∀ (p : Project) (names : List String) (ss : List Service),
      p.get_services names false = .ok ss →
      p.stop names = .ok ((ss.map (fun s => LifecycleCall.stopCall s.name)).reverse) ∧
      p.kill names = .ok ((ss.map (fun s => LifecycleCall.killCall s.name)).reverse) := by
  intro p names ss h
  constructor
  · simp only [Project.stop, h]
    rw [foldl_emit_eq_map, List.nil_append, List.map_reverse]
  · simp only [Project.kill, h]
    rw [foldl_emit_eq_map, List.nil_append, List.map_reverse]

/-- Witness for C8: stopping and killing `['web', 'db']` on the two-service
registry emits the calls in reverse resolution order. -/
theorem C8_stop_kill_reverse_order_witness :
    exPrjWebDb.stop ["web", "db"]
      = .ok [LifecycleCall.stopCall "db", LifecycleCall.stopCall "web"] ∧
    exPrjWebDb.kill ["web", "db"]
      = .ok [LifecycleCall.killCall "db", LifecycleCall.killCall "web"] :=
  C8_stop_kill_reverse_order exPrjWebDb ["web", "db"] [exWeb, exDb] rfl

/-! ## C3 and C9: `get_service` resolution -/

/-- C3 counterexample: on a registry named `test` whose namespace is
`testx`, the key `testx_web` splits into candidate namespace `testx` —
equal to the registry's namespace — yet the lookup raises `NoSuchService`
instead of returning the service named `web`, because the code compares the
resolved namespace against the registry's *name*, not its namespace. -/
theorem C3_counterexample :
    (Project.make "test" [Service.mk "web" []] (some "testx")).nspace = "testx" ∧
    rsplitUnderscore "testx_web".data = some ("testx".data, "web".data) ∧
    (Project.make "test" [Service.mk "web" []] (some "testx")).get_service "testx_web"
      = .error "testx_web" ∧
    ∀ s, (Project.make "test" [Service.mk "web" []] (some "testx")).get_service "testx_web"
      ≠ .ok s := by
  refine ⟨rfl, rfl, rfl, ?_⟩
  intro s h
  have h2 : (Except.error "testx_web" : Except String Service) = .ok s := h
  exact Except.noConfusion h2

/-- C3 (amended): `get_service` splits a key containing `'_'` at its last
occurrence into (candidateNamespace, shortName); when the candidate differs
from the registry's namespace, the namespace is prepended to it; when the
resolved namespace matches the registry's *name* (not, as the claim said,
its namespace), the service with shortName is returned, and a key without a
separator is looked up under the registry's own name; in particular, on a
registry named `test`, `get_service('test_web')` returns the service named
`web`, and `get_service('web')` returns the same service. -/
theorem C3_get_service_amended :
    (∀ (p : Project) (key : String), p.get_service key = getServiceSpec p key) ∧
    (Project.make "test" [Service.mk "web" []] none).get_service "test_web"
      = .ok (Service.mk "web" []) ∧
    (Project.make "test" [Service.mk "web" []] none).get_service "web"
      = .ok (Service.mk "web" []) := by
  refine ⟨?_, rfl, rfl⟩
  intro p key
  unfold Project.get_service getServiceSpec
  cases hsp : rsplitUnderscore key.data with
  | none => simp
  | some pr_sn =>
    obtain ⟨pr, sn⟩ := pr_sn
    by_cases hc : String.mk pr = p.nspace
    · simp [hc]
    · simp [hc]

/-- C9 counterexample: registry `test` (namespace = name) containing
services named `_bar` and `bar`; the key `_bar` is the exact name of a
registered service, contains an underscore, and the part before its last
underscore (the empty string) differs from the registry's name — yet
`get_service('_bar')` returns the service named `bar` rather than raising
`NoSuchService`. -/
theorem C9_counterexample :
    (Project.make "test" [Service.mk "_bar" [], Service.mk "bar" []] none).nspace
      = (Project.make "test" [Service.mk "_bar" [], Service.mk "bar" []] none).name ∧
    Service.mk "_bar" []
      ∈ (Project.make "test" [Service.mk "_bar" [], Service.mk "bar" []] none).services ∧
    (Service.mk "_bar" []).name = "_bar" ∧
    rsplitUnderscore "_bar".data = some ([], "bar".data) ∧
    String.mk [] ≠ "test" ∧
    (Project.make "test" [Service.mk "_bar" [], Service.mk "bar" []] none).get_service "_bar"
      = .ok (Service.mk "bar" []) ∧
    ∀ e, (Project.make "test" [Service.mk "_bar" [], Service.mk "bar" []] none).get_service "_bar"
      ≠ .error e := by
  refine ⟨rfl, by decide, rfl, rfl, by decide, rfl, ?_⟩
  intro e h
  have h2 : (Except.ok (Service.mk "bar" []) : Except String Service) = .error e := h
  exact Except.noConfusion h2

/-- C9 (amended): on a registry whose namespace equals its name,
`get_service` applied to a key that contains an underscore raises
`NoSuchService` whenever the part before the last underscore is *non-empty*
and differs from the registry's name — in particular a registered service
whose own name has that shape cannot be retrieved by its bare name.  (The
original claim, without the non-emptiness condition, is refuted by
`C9_counterexample`: an empty part concatenates with the namespace back to
the registry name and the short name is looked up instead.) -/
theorem C9_get_service_underscore_amended :
    ∀ (p : Project) (key : String) (pr sn : List Char),
      p.nspace = p.name →
      rsplitUnderscore key.data = some (pr, sn) →
      pr ≠ [] →
      String.mk pr ≠ p.name →
      (∃ s, s ∈ p.services ∧ s.name = key) →
      p.get_service key = .error key := by
  intro p key pr sn hns hsp hpr hname _
  unfold Project.get_service
  simp only [hsp]
  have hc : String.mk pr ≠ p.nspace := by rw [hns]; exact hname
  rw [if_pos hc]
  have hne : p.nspace ++ String.mk pr ≠ p.name := by
    rw [hns]
    intro he
    have hlen := congrArg String.length he
    rw [String.length_append] at hlen
    have hpos : 0 < (String.mk pr).length := by
      cases pr with
      | nil => exact absurd rfl hpr
      | cons c cs => exact Nat.succ_pos _
    omega
  rw [if_neg hne]

/-- Witness for the amended C9: the registry `test` contains a service
named `a_b`, and looking it up by its own name raises `NoSuchService`. -/
theorem C9_get_service_underscore_amended_witness :
    (Project.make "test" [Service.mk "a_b" []] none).get_service "a_b" = .error "a_b" :=
  C9_get_service_underscore_amended
    (Project.make "test" [Service.mk "a_b" []] none) "a_b" ['a'] ['b']
    rfl rfl (by decide) (by decide)
    ⟨Service.mk "a_b" [], by decide, rfl⟩

/-! ## C2 and C10: `get_services` expansion and deduplication -/

theorem addLinkedList_eq_flatMap :
    ∀ (l : List Service), addLinkedList l = l.flatMap addLinked
  | [] => rfl
  | s :: ss => by rw [addLinkedList, List.flatMap_cons, addLinkedList_eq_flatMap ss]

mutual

/-- The source's `_add_linked_services` computes exactly the spec-side
depth-first closure (the source's empty-links early return is the only
difference, and it is semantically transparent). -/
theorem addLinked_eq_specClosure : (s : Service) → addLinked s = specClosure s
  | .mk n [] => by rw [addLinked, specClosure, specClosureList]; rfl
  | .mk n (a :: as) => by
    rw [addLinked, specClosure, addLinkedList_eq_specClosureList (a :: as)]
    rfl
termination_by structural s => s

theorem addLinkedList_eq_specClosureList :
    (l : List Service) → addLinkedList l = specClosureList l
  | [] => rfl
  | s :: ss => by
    rw [addLinkedList, specClosureList, addLinked_eq_specClosure s,
      addLinkedList_eq_specClosureList ss]
termination_by structural l => l

end

theorem keepFirsts_congr {α : Type} [DecidableEq α] :
    ∀ (l s1 s2 : List α), (∀ a, a ∈ s1 ↔ a ∈ s2) →
      keepFirsts s1 l = keepFirsts s2 l
  | [], _, _, _ => rfl
  | x :: xs, s1, s2, h => by
    rw [keepFirsts, keepFirsts]
    by_cases hx : x ∈ s1
    · rw [if_pos hx, if_pos ((h x).1 hx), keepFirsts_congr xs s1 s2 h]
    · rw [if_neg hx, if_neg (fun hh => hx ((h x).2 hh)),
        keepFirsts_congr xs (x :: s1) (x :: s2) (by intro a; simp [h a])]

/-- The `uniques` loop of the source is the spec-side first-occurrence
deduplication, relative to an accumulator. -/
theorem uniquesLoop_eq_keepFirsts {α : Type} [DecidableEq α] :
    ∀ (l acc : List α), uniquesLoop l acc = acc ++ keepFirsts acc l
  | [], acc => by rw [uniquesLoop, keepFirsts, List.append_nil]
  | x :: xs, acc => by
    rw [uniquesLoop, keepFirsts]
    by_cases hx : x ∈ acc
    · rw [if_pos hx, if_pos hx, uniquesLoop_eq_keepFirsts xs acc]
    · rw [if_neg hx, if_neg hx, uniquesLoop_eq_keepFirsts xs (acc ++ [x]),
        keepFirsts_congr xs (acc ++ [x]) (x :: acc) (by intro a; simp [or_comm])]
      simp

theorem dedupFirst_eq_keepFirsts {α : Type} [DecidableEq α] (l : List α) :
    dedupFirst l = keepFirsts [] l := by
  rw [dedupFirst, uniquesLoop_eq_keepFirsts, List.nil_append]

theorem mem_keepFirsts {α : Type} [DecidableEq α] :
    ∀ (l seen : List α) (x : α), x ∈ keepFirsts seen l ↔ (x ∈ l ∧ x ∉ seen)
  | [], seen, x => by simp [keepFirsts]
  | y :: ys, seen, x => by
    rw [keepFirsts]
    by_cases hy : y ∈ seen
    · rw [if_pos hy, mem_keepFirsts ys seen x]
      constructor
      · rintro ⟨h1, h2⟩; exact ⟨List.mem_cons_of_mem _ h1, h2⟩
      · rintro ⟨h1, h2⟩
        rcases List.mem_cons.1 h1 with rfl | h1
        · exact absurd hy h2
        · exact ⟨h1, h2⟩
    · rw [if_neg hy]
      constructor
      · intro hmem
        rcases List.mem_cons.1 hmem with rfl | hmem
        · exact ⟨List.mem_cons_self _ _, hy⟩
        · have := (mem_keepFirsts ys (y :: seen) x).1 hmem
          refine ⟨List.mem_cons_of_mem _ this.1, fun hs => this.2 (List.mem_cons_of_mem _ hs)⟩
      · rintro ⟨h1, h2⟩
        rcases List.mem_cons.1 h1 with rfl | h1
        · exact List.mem_cons_self _ _
        · by_cases hxy : x = y
          · subst hxy; exact List.mem_cons_self _ _
          · refine List.mem_cons_of_mem _ ((mem_keepFirsts ys (y :: seen) x).2 ⟨h1, ?_⟩)
            intro hs
            rcases List.mem_cons.1 hs with h | h
            · exact hxy h
            · exact h2 h

theorem keepFirsts_nodup {α : Type} [DecidableEq α] :
    ∀ (l seen : List α), (keepFirsts seen l).Nodup
  | [], _ => List.nodup_nil
  | y :: ys, seen => by
    rw [keepFirsts]
    by_cases hy : y ∈ seen
    · rw [if_pos hy]; exact keepFirsts_nodup ys seen
    · rw [if_neg hy]
      refine List.Nodup.cons ?_ (keepFirsts_nodup ys (y :: seen))
      intro hmem
      exact ((mem_keepFirsts ys (y :: seen) y).1 hmem).2 (List.mem_cons_self _ _)

theorem keepFirsts_sublist {α : Type} [DecidableEq α] :
    ∀ (l seen : List α), (keepFirsts seen l).Sublist l
  | [], _ => List.Sublist.refl _
  | y :: ys, seen => by
    rw [keepFirsts]
    by_cases hy : y ∈ seen
    · rw [if_pos hy]; exact (keepFirsts_sublist ys seen).cons _
    · rw [if_neg hy]; exact (keepFirsts_sublist ys (y :: seen)).cons₂ _

/-- C2: for every registry and non-empty list of requested names,
`get_services` with `include_links=true` returns, for each requested service
in requested order, the depth-first closure of its linked services placed
before the service itself, with the concatenation then deduplicated keeping
only the first occurrence of each service while preserving relative order;
in particular, with `web` linking `db` and `console` linking `web`,
`get_services(['console'], include_links=true)` returns `[db, web, console]`,
and `get_services(['web', 'db'], include_links=true)` where `web` links `db`
returns `[db, web]`. -/
theorem C2_get_services_include_links :
    (∀ (p : Project) (names : List String), names ≠ [] →
      p.get_services names true
        = (names.mapM p.get_service).map
            (fun svcs => keepFirsts [] (svcs.flatMap specClosure))) ∧
    exPrj.get_services ["console"] true = .ok [exDb, exWeb, exConsole] ∧
    exPrjWebDb.get_services ["web", "db"] true = .ok [exDb, exWeb] := by
  refine ⟨?_, rfl, rfl⟩
  intro p names h
  unfold Project.get_services
  cases names with
  | nil => exact absurd rfl h
  | cons a as =>
    simp only [List.isEmpty_cons, Bool.false_eq_true, if_false]
    cases hm : (a :: as).mapM p.get_service with
    | error e => rfl
    | ok svcs =>
      show Except.ok (dedupFirst (svcs.flatMap addLinked))
        = Except.ok (keepFirsts [] (svcs.flatMap specClosure))
      rw [dedupFirst_eq_keepFirsts,
        show addLinked = specClosure from funext addLinked_eq_specClosure]

/-- Witness for C2: the closure example instantiated at `['console']`. -/
theorem C2_get_services_include_links_witness :
    exPrj.get_services ["console"] true
      = (["console"].mapM exPrj.get_service).map
          (fun svcs => keepFirsts [] (svcs.flatMap specClosure)) :=
  C2_get_services_include_links.1 exPrj ["console"] (by decide)

/-- C10: `get_services` deduplicates its result even when `include_links`
is false — for every nonempty name list (in particular one containing the
same service name more than once), each resolved service appears exactly
once in the output, at the position of its first occurrence (the output is
the first-occurrence subsequence of the resolved list); e.g.
`get_services(['web', 'web'])` returns `[web]`. -/
theorem C10_get_services_dedup_without_links :
    (∀ (p : Project) (names : List String) (svcs : List Service), names ≠ [] →
      names.mapM p.get_service = .ok svcs →
      ∃ out, p.get_services names false = .ok out ∧
        out = keepFirsts [] svcs ∧
        out.Nodup ∧
        out.Sublist svcs ∧
        (∀ x, x ∈ out ↔ x ∈ svcs) ∧
        (∀ x ∈ svcs, out.count x = 1)) ∧
    exPrjWebDb.get_services ["web", "web"] false = .ok [exWeb] := by
  refine ⟨?_, rfl⟩
  intro p names svcs h hm
  refine ⟨keepFirsts [] svcs, ?_, rfl, keepFirsts_nodup _ _, keepFirsts_sublist _ _, ?_, ?_⟩
  · unfold Project.get_services
    cases names with
    | nil => exact absurd rfl h
    | cons a as =>
      simp only [List.isEmpty_cons, Bool.false_eq_true, if_false]
      rw [hm]
      simp only [if_neg]
      rw [dedupFirst_eq_keepFirsts]
  · intro x
    rw [mem_keepFirsts]
    simp
  · intro x hx
    refine List.count_eq_one_of_mem (keepFirsts_nodup _ _) ?_
    rw [mem_keepFirsts]
    exact ⟨hx, by simp⟩

/-- Witness for C10: `['web', 'web']` resolves to `[web, web]` and the
output `[web]` keeps one occurrence. -/
theorem C10_get_services_dedup_without_links_witness :
    ∃ out, exPrjWebDb.get_services ["web", "web"] false = .ok out ∧
      out = keepFirsts [] [exWeb, exWeb] ∧
      out.Nodup ∧
      out.Sublist [exWeb, exWeb] ∧
      (∀ x, x ∈ out ↔ x ∈ [exWeb, exWeb]) ∧
      (∀ x ∈ [exWeb, exWeb], out.count x = 1) :=
  C10_get_services_dedup_without_links.1 exPrjWebDb ["web", "web"] [exWeb, exWeb]
    (by decide) rfl

/-! ## Helper lemmas for the sort analysis -/

theorem name_inj {S : List SDict} (hnames : (S.map SDict.name).Nodup)
    {a b : SDict} (ha : a ∈ S) (hb : b ∈ S) (h : a.name = b.name) : a = b :=
  List.inj_on_of_nodup_map hnames ha hb h

theorem sdicts_nodup {S : List SDict} (hnames : (S.map SDict.name).Nodup) :
    S.Nodup :=
  List.Nodup.of_map SDict.name hnames

theorem chain'_transGen {α : Type} {R : α → α → Prop} :
    ∀ {a : α} {l : List α}, List.Chain' R (a :: l) → ∀ b ∈ l, Relation.TransGen R a b := by
  intro a l
  induction l generalizing a with
  | nil => intro _ b hb; cases hb
  | cons c l' ih =>
    intro hch b hb
    have h1 := List.chain'_cons.1 hch
    rcases List.mem_cons.1 hb with rfl | hb'
    · exact Relation.TransGen.single h1.1
    · exact Relation.TransGen.head h1.1 (ih h1.2 b hb')

theorem chain'_depS {S : List SDict} :
    ∀ {l : List SDict}, l.Chain' (fun a b => Dep a b) → (∀ x ∈ l, x ∈ S) →
      l.Chain' (DepS S) := by
  intro l
  induction l with
  | nil => intro _ _; exact List.chain'_nil
  | cons a t ih =>
    intro hch hmem
    cases t with
    | nil => exact List.chain'_singleton a
    | cons b t' =>
      have h1 := List.chain'_cons.1 hch
      exact List.chain'_cons.2
        ⟨⟨hmem a (List.mem_cons_self _ _), hmem b (List.mem_cons_of_mem _ (List.mem_cons_self _ _)),
          h1.1⟩,
         ih h1.2 (fun x hx => hmem x (List.mem_cons_of_mem _ hx))⟩

theorem filter_length_lt {α : Type} {p q : α → Bool}
    (himp : ∀ x, q x = true → p x = true) :
    ∀ (l : List α) (a : α), a ∈ l → p a = true → q a = false →
      (l.filter q).length < (l.filter p).length := by
  intro l
  induction l with
  | nil => intro a ha; cases ha
  | cons x xs ih =>
    intro a ha hp hq
    rcases List.mem_cons.1 ha with rfl | ha'
    · rw [List.filter_cons_of_pos hp, List.filter_cons_of_neg (by rw [hq]; exact Bool.false_ne_true),
        List.length_cons]
      have hle : (xs.filter q).length ≤ (xs.filter p).length :=
        List.Sublist.length_le (List.monotone_filter_right xs himp)
      omega
    · have hlt := ih a ha' hp hq
      by_cases hx : q x = true
      · rw [List.filter_cons_of_pos hx, List.filter_cons_of_pos (himp x hx), List.length_cons,
          List.length_cons]
        omega
      · rw [List.filter_cons_of_neg hx]
        by_cases hpx : p x = true
        · rw [List.filter_cons_of_pos hpx, List.length_cons]
          omega
        · rw [List.filter_cons_of_neg hpx]
          omega

theorem measure_mono {s s1 : SortState} (ht : s1.temp = s.temp)
    (hu : s1.unmarked.Sublist s.unmarked) : measureS s1 ≤ measureS s := by
  unfold measureS
  rw [ht]
  exact List.Sublist.length_le (List.Sublist.filter _ (List.Sublist.map _ hu))

theorem measure_temp_append_lt {s : SortState} {n : SDict}
    (hu : n ∈ s.unmarked) (hn : n.name ∉ s.temp) :
    measureS { s with temp := s.temp ++ [n.name] } < measureS s := by
  unfold measureS
  refine filter_length_lt ?_ (s.unmarked.map SDict.name) n.name
    (List.mem_map_of_mem _ hu) ?_ ?_
  · intro x hx
    rw [decide_eq_true_eq] at hx
    rw [decide_eq_true_eq]
    intro hmem
    exact hx (List.mem_append_left _ hmem)
  · rw [decide_eq_true_eq]; exact hn
  · rw [decide_eq_false_iff_not]
    intro hmem
    exact hmem (List.mem_append_right _ (List.mem_singleton.2 rfl))

theorem sublist_strict_length {α : Type} {l' l : List α} (hs : l'.Sublist l)
    {a : α} (ha : a ∈ l) (ha' : a ∉ l') : l'.length < l.length := by
  rcases Nat.lt_or_ge l'.length l.length with h | h
  · exact h
  · have heq : l' = l := List.Sublist.eq_of_length hs (Nat.le_antisymm (List.Sublist.length_le hs) h)
    exact absurd (heq ▸ ha) ha'

theorem temp_erase_append {l : List String} {a : String} (h : a ∉ l) :
    (l ++ [a]).erase a = l := by
  rw [List.erase_append_right _ h, List.erase_cons_head, List.append_nil]

theorem getLast?_mem_of_eq {α : Type} {l : List α} {a : α}
    (h : l.getLast? = some a) : a ∈ l := by
  cases l with
  | nil => cases h
  | cons x xs =>
    have hne : x :: xs ≠ [] := by intro hh; cases hh
    rw [List.getLast?_eq_getLast_of_ne_nil hne] at h
    have := List.getLast_mem hne
    rwa [Option.some_inj.1 h] at this

theorem temp_names_in_S {S : List SDict} {s : SortState} (hGood : GoodS S s) :
    ∀ t ∈ s.temp, t ∈ S.map SDict.name := by
  intro t ht
  obtain ⟨d, hd, hdn⟩ := hGood.2.2.2.2 t ht
  exact hdn ▸ List.mem_map_of_mem _ (hGood.1.subset (List.mem_append_right _ hd))

/-- Closing the visit stack on a marked declaration exhibits a genuine
reference cycle through it. -/
theorem cycle_from_chain {S : List SDict} {temp : List String} {n : SDict}
    (hnames : (S.map SDict.name).Nodup) (hch : ChainTo S temp n) (hnS : n ∈ S)
    (hmem : n.name ∈ temp) : Relation.TransGen (DepS S) n n := by
  obtain ⟨rev, hmap, hrmem, hchain, hhead⟩ := hch
  have hnm : n.name ∈ rev.map SDict.name := by
    rw [hmap]; exact List.mem_reverse.2 hmem
  obtain ⟨x, hx, hxn⟩ := List.mem_map.1 hnm
  have hxeq : x = n := name_inj hnames (hrmem x hx) hnS hxn
  subst hxeq
  cases rev with
  | nil => cases hx
  | cons h t =>
    have hDnh : Dep x h := hhead h rfl
    have hchS : (h :: t).Chain' (DepS S) := chain'_depS hchain hrmem
    rcases List.mem_cons.1 hx with rfl | hxt
    · exact Relation.TransGen.single ⟨hnS, hnS, hDnh⟩
    · exact Relation.TransGen.head
        ⟨hnS, hrmem h (List.mem_cons_self _ _), hDnh⟩
        (chain'_transGen hchS x hxt)

/-- Visiting a temporarily-marked declaration raises the error the source's
cascade selects, and a reference cycle runs through that declaration. -/
theorem visitF_marked {S : List SDict} {f : Nat} {n : SDict} {s : SortState}
    (hnames : (S.map SDict.name).Nodup) (hn : n.name ∈ s.temp)
    (hGood : GoodS S s) (hch : ChainTo S s.temp n) (hnS : n ∈ S) :
    ∃ e, visitF S (f + 1) n s = .error e ∧ CycErr S e := by
  have hcyc := cycle_from_chain hnames hch hnS hn
  by_cases hl : n.name ∈ getServiceNames n.links
  · refine ⟨.selfLink n.name, ?_, n, hnS, hcyc, Or.inl ⟨hl, rfl⟩⟩
    simp only [visitF]
    rw [if_pos hn, if_pos hl]
  · by_cases hv : n.name ∈ n.volumes_from
    · refine ⟨.selfVolume n.name, ?_, n, hnS, hcyc, Or.inr (Or.inl ⟨hl, hv, rfl⟩)⟩
      simp only [visitF]
      rw [if_pos hn, if_neg hl, if_pos hv]
    · refine ⟨.circular s.temp, ?_, n, hnS, hcyc,
        Or.inr (Or.inr ⟨hl, hv, s.temp, rfl, hn, temp_names_in_S hGood⟩)⟩
      simp only [visitF]
      rw [if_pos hn, if_neg hl, if_neg hv]

/-- A visit of a declaration that is neither marked nor unmarked is a no-op
satisfying the visit postcondition. -/
theorem noop_post {S : List SDict} {n : SDict} {s : SortState}
    (hGood : GoodS S s) (hnS : n ∈ S) (hn : n.name ∉ s.temp)
    (hu : n ∉ s.unmarked) : PostV S n s s := by
  refine ⟨rfl, List.Sublist.refl _, ⟨[], (List.nil_append _).symm⟩, hGood, ?_, hn, ?_⟩
  · have := hGood.1.symm.subset hnS
    rcases List.mem_append.1 this with h | h
    · exact h
    · exact absurd h hu
  · intro d hd _
    exact hd

/-- Finalizing a visited declaration preserves the invariant: all its
dependents are already in the output, so prepending it keeps the output
topologically ordered. -/
theorem finalize_post {S : List SDict} {n : SDict} {s s1 : SortState}
    (hnames : (S.map SDict.name).Nodup) (hGood : GoodS S s) (hnS : n ∈ S)
    (hn : n.name ∉ s.temp) (hu : n ∈ s.unmarked)
    (hpost : PostL S (depsOf S n) { s with temp := s.temp ++ [n.name] } s1) :
    PostV S n s
      { unmarked := s1.unmarked.erase n
        temp := s1.temp.erase n.name
        output := n :: s1.output } := by
  obtain ⟨hA1, hA2, hA3, hA4, hA5⟩ := hGood
  obtain ⟨ht, hsub, ⟨newOut, hout⟩, hGood1, hdeps, hB6⟩ := hpost
  obtain ⟨h1A1, h1A2, h1A3, h1A4, h1A5⟩ := hGood1
  have hn1 : n ∈ s1.unmarked :=
    hB6 n hu (List.mem_append_right _ (List.mem_singleton.2 rfl))
  have hSnodup : S.Nodup := sdicts_nodup hnames
  have hnd1 : (s1.output ++ s1.unmarked).Nodup := h1A1.nodup_iff.2 hSnodup
  have hdisj : s1.output.Disjoint s1.unmarked := (List.nodup_append.1 hnd1).2.2
  have hnout : n ∉ s1.output := fun h => hdisj h hn1
  have htemp2 : s1.temp.erase n.name = s.temp := by
    rw [ht]; exact temp_erase_append hn
  refine ⟨htemp2, ?_, ?_, ⟨?_, ?_, ?_, ?_, ?_⟩, List.mem_cons_self _ _, hn, ?_⟩
  · exact (List.erase_sublist n s1.unmarked).trans hsub
  · exact ⟨n :: newOut, by rw [hout]; rfl⟩
  · -- partition
    have hpe : s1.unmarked.Perm (n :: s1.unmarked.erase n) := List.perm_cons_erase hn1
    have h1 : (s1.output ++ s1.unmarked).Perm
        (s1.output ++ n :: s1.unmarked.erase n) := List.Perm.append_left _ hpe
    have h2 : ((n :: s1.output) ++ s1.unmarked.erase n).Perm
        (s1.output ++ n :: s1.unmarked.erase n) := List.perm_middle.symm
    exact h2.trans (h1.symm.trans h1A1)
  · -- dependents-closure
    intro x hx m hmS hdep
    rcases List.mem_cons.1 hx with rfl | hx'
    · exact List.mem_cons_of_mem _
        ((hdeps m (List.mem_filter.2 ⟨hmS, decide_eq_true hdep⟩)).1)
    · exact List.mem_cons_of_mem _ (h1A2 x hx' m hmS hdep)
  · -- pairwise order
    refine List.pairwise_cons.2 ⟨?_, h1A3⟩
    intro y hy hdep
    exact hnout (h1A2 y hy n hnS hdep)
  · -- no self-dependency in output
    intro x hx
    rcases List.mem_cons.1 hx with rfl | hx'
    · intro hdep
      exact (hdeps x (List.mem_filter.2 ⟨hnS, decide_eq_true hdep⟩)).2
        (List.mem_append_right _ (List.mem_singleton.2 rfl))
    · exact h1A4 x hx'
  · -- temp marks still name unmarked declarations
    intro t htmp
    rw [htemp2] at htmp
    obtain ⟨d, hd, hdn⟩ := hA5 t htmp
    have hd1 : d ∈ s1.unmarked :=
      hB6 d hd (List.mem_append_left _ (hdn ▸ htmp))
    have hdne : d ≠ n := by
      intro heq
      refine hn ?_
      rw [← heq, hdn]
      exact htmp
    exact ⟨d, (List.mem_erase_of_ne hdne).2 hd1, hdn⟩
  · -- marked declarations are not finalized
    intro d hd hdt
    have hd1 : d ∈ s1.unmarked := hB6 d hd (List.mem_append_left _ hdt)
    have hdne : d ≠ n := by
      intro heq
      exact hn (heq ▸ hdt)
    exact (List.mem_erase_of_ne hdne).2 hd1

/-- The main induction: with enough fuel, `visit` either succeeds and
satisfies the visit postcondition, or raises a `DependencyError` produced
at a declaration through which a reference cycle runs. -/
theorem visit_spec (S : List SDict) (hnames : (S.map SDict.name).Nodup) :
    ∀ f : Nat,
      (∀ n s, n ∈ S → GoodS S s → ChainTo S s.temp n → measureS s + 1 ≤ f →
        (∃ s1, visitF S f n s = .ok s1 ∧ PostV S n s s1) ∨
        (∃ e, visitF S f n s = .error e ∧ CycErr S e)) ∧
      (∀ ms s, (∀ m ∈ ms, m ∈ S) → GoodS S s → (∀ m ∈ ms, ChainTo S s.temp m) →
        measureS s + 1 ≤ f →
        (∃ s1, visitL (visitF S f) ms s = .ok s1 ∧ PostL S ms s s1) ∨
        (∃ e, visitL (visitF S f) ms s = .error e ∧ CycErr S e)) := by
  intro f
  induction f with
  | zero =>
    constructor
    · intro n s _ _ _ hfuel; omega
    · intro ms s _ _ _ hfuel; omega
  | succ f ih =>
    have hF : ∀ n s, n ∈ S → GoodS S s → ChainTo S s.temp n → measureS s + 1 ≤ f + 1 →
        (∃ s1, visitF S (f + 1) n s = .ok s1 ∧ PostV S n s s1) ∨
        (∃ e, visitF S (f + 1) n s = .error e ∧ CycErr S e) := by
      intro n s hnS hGood hch hfuel
      by_cases hn : n.name ∈ s.temp
      · exact Or.inr (visitF_marked hnames hn hGood hch hnS)
      · by_cases hu : n ∈ s.unmarked
        · set s' : SortState := { s with temp := s.temp ++ [n.name] } with hs'
          have hGood' : GoodS S s' := by
            obtain ⟨hA1, hA2, hA3, hA4, hA5⟩ := hGood
            refine ⟨hA1, hA2, hA3, hA4, ?_⟩
            intro t ht
            rcases List.mem_append.1 ht with h | h
            · exact hA5 t h
            · exact ⟨n, hu, (List.mem_singleton.1 h).symm⟩
          have hdepsS : ∀ m ∈ depsOf S n, m ∈ S := fun m hm => (List.mem_filter.1 hm).1
          have hch' : ∀ m ∈ depsOf S n, ChainTo S s'.temp m := by
            intro m hm
            obtain ⟨rev, hmap, hrmem, hchain, hhead⟩ := hch
            refine ⟨n :: rev, ?_, ?_, ?_, ?_⟩
            · show n.name :: rev.map SDict.name = (s.temp ++ [n.name]).reverse
              rw [hmap, List.reverse_append]
              rfl
            · intro x hx
              rcases List.mem_cons.1 hx with rfl | hx'
              · exact hnS
              · exact hrmem x hx'
            · cases rev with
              | nil => exact List.chain'_singleton n
              | cons hd0 t => exact List.chain'_cons.2 ⟨hhead hd0 rfl, hchain⟩
            · intro hd0 hh
              simp only [List.head?_cons, Option.some_inj] at hh
              subst hh
              exact of_decide_eq_true (List.mem_filter.1 hm).2
          have hmlt : measureS s' < measureS s := measure_temp_append_lt hu hn
          have hfuel' : measureS s' + 1 ≤ f := by omega
          rcases ih.2 (depsOf S n) s' hdepsS hGood' hch' hfuel' with
            ⟨s1, hok, hpost⟩ | ⟨e, herr, hcyc⟩
          · refine Or.inl ⟨_, ?_, finalize_post hnames hGood hnS hn hu hpost⟩
            simp only [visitF]
            rw [if_neg hn, if_pos hu, ← hs', hok]
          · refine Or.inr ⟨e, ?_, hcyc⟩
            simp only [visitF]
            rw [if_neg hn, if_pos hu, ← hs', herr]
        · refine Or.inl ⟨s, ?_, noop_post hGood hnS hn hu⟩
          simp only [visitF]
          rw [if_neg hn, if_neg hu]
    refine ⟨hF, ?_⟩
    intro ms
    induction ms with
    | nil =>
      intro s _ hGood _ _
      exact Or.inl ⟨s, rfl,
        rfl, List.Sublist.refl _, ⟨[], (List.nil_append _).symm⟩, hGood,
        fun m hm => absurd hm (List.not_mem_nil m), fun d hd _ => hd⟩
    | cons m ms' ihms =>
      intro s hms hGood hch hfuel
      rcases hF m s (hms m (List.mem_cons_self _ _)) hGood
          (hch m (List.mem_cons_self _ _)) hfuel with
        ⟨s1, hok, hpostV⟩ | ⟨e, herr, hcyc⟩
      · obtain ⟨ht1, hsub1, ⟨new1, hout1⟩, hGood1, hmem1, hname1, hB61⟩ := hpostV
        have hms' : ∀ x ∈ ms', x ∈ S := fun x hx => hms x (List.mem_cons_of_mem _ hx)
        have hch1 : ∀ x ∈ ms', ChainTo S s1.temp x := by
          intro x hx; rw [ht1]; exact hch x (List.mem_cons_of_mem _ hx)
        have hfm : measureS s1 ≤ measureS s := measure_mono ht1 hsub1
        have hfuel1 : measureS s1 + 1 ≤ f + 1 := by omega
        rcases ihms s1 hms' hGood1 hch1 hfuel1 with
          ⟨s2, hok2, hpostL⟩ | ⟨e, herr2, hcyc⟩
        · obtain ⟨ht2, hsub2, ⟨new2, hout2⟩, hGood2, hmem2, hB62⟩ := hpostL
          refine Or.inl ⟨s2, ?_, ?_⟩
          · simp only [visitL]
            rw [hok]
            exact hok2
          · refine ⟨by rw [ht2, ht1], hsub2.trans hsub1,
              ⟨new2 ++ new1, by rw [hout2, hout1, List.append_assoc]⟩, hGood2, ?_, ?_⟩
            · intro x hx
              rcases List.mem_cons.1 hx with rfl | hx'
              · exact ⟨by rw [hout2]; exact List.mem_append_right _ hmem1, hname1⟩
              · have hx2 := hmem2 x hx'
                rw [ht1] at hx2
                exact hx2
            · intro d hd hdt
              exact hB62 d (hB61 d hd hdt) (by rw [ht1]; exact hdt)
        · refine Or.inr ⟨e, ?_, hcyc⟩
          simp only [visitL]
          rw [hok]
          exact herr2
      · refine Or.inr ⟨e, ?_, hcyc⟩
        simp only [visitL]
        rw [herr]

/-- The while loop: with the invariant holding and no marks outstanding,
the sort either completes with a partitioned, topologically ordered output
or raises a cycle-derived `DependencyError`. -/
theorem sortLoop_spec (S : List SDict) (hnames : (S.map SDict.name).Nodup) :
    ∀ f s, GoodS S s → s.temp = [] → s.unmarked.length + 1 ≤ f →
      (∃ out, sortLoop S f s = .ok out ∧ out.Perm S ∧
        out.Pairwise (fun a b => ¬ Dep a b) ∧ (∀ x ∈ out, ¬ Dep x x)) ∨
      (∃ e, sortLoop S f s = .error e ∧ CycErr S e) := by
  intro f
  induction f with
  | zero => intro s _ _ hfuel; omega
  | succ f ih =>
    intro s hGood htemp hfuel
    cases hlast : s.unmarked.getLast? with
    | none =>
      have hnil : s.unmarked = [] := List.getLast?_eq_none_iff.1 hlast
      refine Or.inl ⟨s.output, ?_, ?_, hGood.2.2.1, hGood.2.2.2.1⟩
      · simp only [sortLoop]
        rw [hlast]
      · have h1 := hGood.1
        rw [hnil, List.append_nil] at h1
        exact h1
    | some n =>
      have hnU : n ∈ s.unmarked := getLast?_mem_of_eq hlast
      have hnS : n ∈ S := hGood.1.subset (List.mem_append_right _ hnU)
      have hch : ChainTo S s.temp n := by
        refine ⟨[], by rw [htemp]; rfl, ?_, List.chain'_nil, ?_⟩
        · intro x hx; cases hx
        · intro hd0 hh; cases hh
      have hfuelv : measureS s + 1 ≤ s.unmarked.length + 1 := by
        have hm1 : measureS s ≤ (s.unmarked.map SDict.name).length :=
          List.length_filter_le _ _
        have hm2 : (s.unmarked.map SDict.name).length = s.unmarked.length :=
          List.length_map _ _
        omega
      rcases (visit_spec S hnames (s.unmarked.length + 1)).1 n s hnS hGood hch hfuelv with
        ⟨s1, hok, hpostV⟩ | ⟨e, herr, hcyc⟩
      · obtain ⟨ht1, hsub1, _, hGood1, hmem1, _, _⟩ := hpostV
        have hnotin : n ∉ s1.unmarked := by
          have hnd1 : (s1.output ++ s1.unmarked).Nodup :=
            hGood1.1.nodup_iff.2 (sdicts_nodup hnames)
          exact fun h => (List.nodup_append.1 hnd1).2.2 hmem1 h
        have hlen : s1.unmarked.length < s.unmarked.length :=
          sublist_strict_length hsub1 hnU hnotin
        have hfl : s1.unmarked.length + 1 ≤ f := by omega
        have ht1' : s1.temp = [] := by rw [ht1, htemp]
        rcases ih s1 hGood1 ht1' hfl with
          ⟨out, hres, hperm, hpw, hself⟩ | ⟨e, hres, hcyc⟩
        · refine Or.inl ⟨out, ?_, hperm, hpw, hself⟩
          simp only [sortLoop]
          rw [hlast]
          show (match visitF S (s.unmarked.length + 1) n s with
            | Except.error e => Except.error e
            | Except.ok s1 => sortLoop S f s1) = _
          rw [hok]
          exact hres
        · refine Or.inr ⟨e, ?_, hcyc⟩
          simp only [sortLoop]
          rw [hlast]
          show (match visitF S (s.unmarked.length + 1) n s with
            | Except.error e => Except.error e
            | Except.ok s1 => sortLoop S f s1) = _
          rw [hok]
          exact hres
      · refine Or.inr ⟨e, ?_, hcyc⟩
        simp only [sortLoop]
        rw [hlast]
        show (match visitF S (s.unmarked.length + 1) n s with
          | Except.error e => Except.error e
          | Except.ok s1 => sortLoop S f s1) = _
        rw [herr]

/-- `sort_service_dicts` on a collection with unique names: success with a
partitioned, topologically ordered output, or a cycle-derived error. -/
theorem sort_spec (S : List SDict) (hnames : (S.map SDict.name).Nodup) :
    (∃ out, sort_service_dicts S = .ok out ∧ out.Perm S ∧
      out.Pairwise (fun a b => ¬ Dep a b) ∧ (∀ x ∈ out, ¬ Dep x x)) ∨
    (∃ e, sort_service_dicts S = .error e ∧ CycErr S e) := by
  have hGood0 : GoodS S { unmarked := sortByName S, temp := [], output := [] } := by
    refine ⟨?_, ?_, List.Pairwise.nil, ?_, ?_⟩
    · show ([] ++ sortByName S).Perm S
      rw [List.nil_append]
      exact List.perm_insertionSort _ _
    · intro x hx; cases hx
    · intro x hx; cases hx
    · intro t ht; cases ht
  have hlen : (sortByName S).length + 1 ≤ S.length + 1 := by
    have h1 := (List.perm_insertionSort nameLe S).length_eq
    unfold sortByName
    omega
  exact sortLoop_spec S hnames (S.length + 1) _ hGood0 rfl hlen

/-- A successful sorted output excludes every reference cycle in `S`. -/
theorem success_no_cycle {S out : List SDict} (hnames : (S.map SDict.name).Nodup)
    (hperm : out.Perm S) (hpw : out.Pairwise (fun a b => ¬ Dep a b))
    (hself : ∀ x ∈ out, ¬ Dep x x) :
    ∀ c ∈ S, ¬ Relation.TransGen (DepS S) c c := by
  have hkey : ∀ a b, DepS S a b → List.indexOf b out < List.indexOf a out := by
    rintro a b ⟨haS, hbS, hdep⟩
    have ha : a ∈ out := hperm.symm.subset haS
    have hb : b ∈ out := hperm.symm.subset hbS
    have hab : a ≠ b := fun h => hself a ha (h ▸ hdep)
    have hia : List.indexOf a out < out.length := List.indexOf_lt_length.2 ha
    have hib : List.indexOf b out < out.length := List.indexOf_lt_length.2 hb
    have hne : List.indexOf a out ≠ List.indexOf b out :=
      fun h => hab ((List.indexOf_inj ha hb).1 h)
    rcases Nat.lt_or_ge (List.indexOf a out) (List.indexOf b out) with hlt | hge
    · exfalso
      have hp := List.pairwise_iff_getElem.1 hpw (List.indexOf a out)
        (List.indexOf b out) hia hib hlt
      rw [List.getElem_indexOf hia, List.getElem_indexOf hib] at hp
      exact hp hdep
    · omega
  have hmono : ∀ a b, Relation.TransGen (DepS S) a b →
      List.indexOf b out < List.indexOf a out := by
    intro a b htg
    induction htg with
    | single h1 => exact hkey _ _ h1
    | tail _ h1 ihh => exact lt_trans (hkey _ _ h1) ihh
  exact fun c _ hc => lt_irrefl _ (hmono c c hc)

/-- In a pairwise-ordered list, an element not related to another distinct
element appears strictly after it. -/
theorem pairwise_before {α : Type} {P : α → α → Prop} :
    ∀ {l : List α} {a b : α}, l.Pairwise P → a ∈ l → b ∈ l → ¬ P a b → a ≠ b →
      [b, a].Sublist l := by
  intro l
  induction l with
  | nil => intro a b _ ha; cases ha
  | cons x t ih =>
    intro a b hpw ha hb hnP hne
    have hx := List.pairwise_cons.1 hpw
    rcases List.mem_cons.1 ha with rfl | ha'
    · rcases List.mem_cons.1 hb with rfl | hb'
      · exact absurd rfl hne
      · exact absurd (hx.1 b hb') hnP
    · rcases List.mem_cons.1 hb with rfl | hb'
      · exact List.Sublist.cons₂ _ (List.singleton_sublist.2 ha')
      · exact List.Sublist.cons _ (ih hx.2 ha' hb' hnP hne)

/-- A ranking that strictly increases along a relation rules out its
transitive cycles. -/
theorem transGen_irrefl_of_rank {α : Type} {R : α → α → Prop} (rk : α → Nat)
    (h : ∀ a b, R a b → rk a < rk b) : ∀ c, ¬ Relation.TransGen R c c := by
  have key : ∀ a b, Relation.TransGen R a b → rk a < rk b := by
    intro a b htg
    induction htg with
    | single h1 => exact h _ _ h1
    | tail _ h1 ihh => exact lt_trans ihh (h _ _ h1)
  exact fun c hc => lt_irrefl _ (key c c hc)

/-! ## C1, C4, C5: the topological sort claims -/

/-- C1: for every collection of service declarations with unique names, no
self-reference and no link/volumes-from cycle, `sort_service_dicts` returns
a permutation of the input in which, for every pair of declarations `a` and
`b` where `a`'s links or volumes_from reference `b`'s name, `b` appears
strictly before `a` in the output. -/
theorem C1_sort_topological :
    ∀ S : List SDict,
      (S.map SDict.name).Nodup →
      (∀ x ∈ S, ¬ Dep x x) →
      (∀ c ∈ S, ¬ Relation.TransGen (DepS S) c c) →
      ∃ out, sort_service_dicts S = .ok out ∧ out.Perm S ∧
        ∀ a ∈ S, ∀ b ∈ S, Dep a b → [b, a].Sublist out := by
  intro S hnames hself hacyc
  rcases sort_spec S hnames with
    ⟨out, hres, hperm, hpw, hselfo⟩ | ⟨e, hres, c, hcS, hcyc, _⟩
  · refine ⟨out, hres, hperm, ?_⟩
    intro a haS b hbS hdep
    have ha : a ∈ out := hperm.symm.subset haS
    have hb : b ∈ out := hperm.symm.subset hbS
    have hne : a ≠ b := fun h => hself a haS (h ▸ hdep)
    exact pairwise_before hpw ha hb (not_not_intro hdep) hne
  · exact absurd hcyc (hacyc c hcS)

/-- Witness for C1: the repository test's three declarations (`web` links
`db`, `db` mounts volumes from `volume`) sort successfully with every
referenced declaration placed before its dependent. -/
theorem C1_sort_topological_witness :
    ∃ out, sort_service_dicts figtestDicts = .ok out ∧ out.Perm figtestDicts ∧
      ∀ a ∈ figtestDicts, ∀ b ∈ figtestDicts, Dep a b → [b, a].Sublist out := by
  refine C1_sort_topological figtestDicts (by decide) (by decide) ?_
  intro c _
  refine transGen_irrefl_of_rank
    (fun d => if d.name = "web" then 0 else if d.name = "db" then 1 else 2) ?_ c
  intro a b hab
  obtain ⟨haS, hbS, hdep⟩ := hab
  simp only [figtestDicts, List.mem_cons, List.not_mem_nil, or_false] at haS hbS
  rcases haS with rfl | rfl | rfl <;> rcases hbS with rfl | rfl | rfl <;>
    (revert hdep; decide)

/-- C4 counterexample: a collection containing the self-linking declaration
`a` together with an unrelated 2-cycle `b ↔ c`; the sort fails with the
generic circular error naming `b` and `c`, not with the self-link error
naming `a`, because the DFS closes the `b ↔ c` cycle first. -/
theorem C4_counterexample :
    selfLinkA ∈ mixC4 ∧
    selfLinkA.name ∈ getServiceNames selfLinkA.links ∧
    sort_service_dicts mixC4 = .error (.circular ["c", "b"]) ∧
    sort_service_dicts mixC4 ≠ .error (.selfLink "a") := by
  refine ⟨by decide, by decide, by rfl, ?_⟩
  intro h
  have h1 : (SortErr.circular ["c", "b"]) = SortErr.selfLink "a" :=
    Except.error.inj ((by rfl : sort_service_dicts mixC4
      = .error (.circular ["c", "b"])).symm.trans h)
  exact SortErr.noConfusion h1

/-- C4 (amended): for every collection with unique names in which a
declaration `X` lists its own name among its link targets and every
reference cycle closes on `X`, `sort_service_dicts` fails with the
self-link-specific `DependencyError` naming `X`; when `X` instead lists its
own name among its volumes_from entries (and not among its link targets),
it fails with the self-volume-specific `DependencyError`; each is distinct
from the generic circular-dependency error.  (The original unconditional
claim is refuted by `C4_counterexample`: an unrelated cycle can be closed
first.) -/
theorem C4_self_reference_errors_amended :
    (∀ (S : List SDict) (X : SDict), (S.map SDict.name).Nodup → X ∈ S →
      X.name ∈ getServiceNames X.links →
      (∀ c ∈ S, Relation.TransGen (DepS S) c c → c = X) →
      sort_service_dicts S = .error (.selfLink X.name)) ∧
    (∀ (S : List SDict) (X : SDict), (S.map SDict.name).Nodup → X ∈ S →
      X.name ∉ getServiceNames X.links →
      X.name ∈ X.volumes_from →
      (∀ c ∈ S, Relation.TransGen (DepS S) c c → c = X) →
      sort_service_dicts S = .error (.selfVolume X.name)) ∧
    (∀ a ns, SortErr.selfLink a ≠ SortErr.circular ns) ∧
    (∀ a ns, SortErr.selfVolume a ≠ SortErr.circular ns) := by
  refine ⟨?_, ?_, ?_, ?_⟩
  · intro S X hnames hXS hXl hOnly
    have hXX : Relation.TransGen (DepS S) X X :=
      Relation.TransGen.single ⟨hXS, hXS, Or.inl hXl⟩
    rcases sort_spec S hnames with
      ⟨out, _, hperm, hpw, hselfo⟩ | ⟨e, hres, c, hcS, hcyc, herrat⟩
    · exact absurd hXX (success_no_cycle hnames hperm hpw hselfo X hXS)
    · have hcX : c = X := hOnly c hcS hcyc
      subst hcX
      rcases herrat with ⟨_, rfl⟩ | ⟨hnl, _, _⟩ | ⟨hnl, _, _⟩
      · exact hres
      · exact absurd hXl hnl
      · exact absurd hXl hnl
  · intro S X hnames hXS hXnl hXv hOnly
    have hXX : Relation.TransGen (DepS S) X X :=
      Relation.TransGen.single ⟨hXS, hXS, Or.inr hXv⟩
    rcases sort_spec S hnames with
      ⟨out, _, hperm, hpw, hselfo⟩ | ⟨e, hres, c, hcS, hcyc, herrat⟩
    · exact absurd hXX (success_no_cycle hnames hperm hpw hselfo X hXS)
    · have hcX : c = X := hOnly c hcS hcyc
      subst hcX
      rcases herrat with ⟨hl, _⟩ | ⟨_, _, rfl⟩ | ⟨_, hnv, _⟩
      · exact absurd hl hXnl
      · exact hres
      · exact absurd hXv hnv
  · intro a ns h; exact SortErr.noConfusion h
  · intro a ns h; exact SortErr.noConfusion h

/-- Witness for the amended C4: a lone self-linking declaration produces
the self-link error, a lone self-mounting declaration the self-volume
error. -/
theorem C4_self_reference_errors_amended_witness :
    sort_service_dicts [selfLinkA] = .error (.selfLink "a") ∧
    sort_service_dicts [selfVolB] = .error (.selfVolume "b") := by
  constructor
  · exact C4_self_reference_errors_amended.1 [selfLinkA] selfLinkA
      (by decide) (by decide) (by decide)
      (fun c hc _ => by simpa using hc)
  · exact C4_self_reference_errors_amended.2.1 [selfVolB] selfVolB
      (by decide) (by decide) (by decide) (by decide)
      (fun c hc _ => by simpa using hc)

/-- C5: for every collection with unique names, a dependency cycle (of
length at least two, given no self-reference anywhere), the sort fails with
the generic circular-dependency `DependencyError` whose message names a
set of in-progress declarations of the collection; for the 3-cycle
`a → b → c → a` via links, the error names all three services. -/
theorem C5_generic_cycle_error :
    (∀ S : List SDict, (S.map SDict.name).Nodup →
      (∀ x ∈ S, ¬ Dep x x) →
      (∃ c ∈ S, Relation.TransGen (DepS S) c c) →
      ∃ ns, sort_service_dicts S = .error (.circular ns) ∧ ns ≠ [] ∧
        ∀ t ∈ ns, t ∈ S.map SDict.name) ∧
    (sort_service_dicts cyc3 = .error (.circular ["c", "b", "a"]) ∧
      "a" ∈ ["c", "b", "a"] ∧ "b" ∈ ["c", "b", "a"] ∧ "c" ∈ ["c", "b", "a"]) := by
  constructor
  · intro S hnames hself hex
    obtain ⟨c0, hc0S, hc0⟩ := hex
    rcases sort_spec S hnames with
      ⟨out, _, hperm, hpw, hselfo⟩ | ⟨e, hres, c, hcS, hcyc, herrat⟩
    · exact absurd hc0 (success_no_cycle hnames hperm hpw hselfo c0 hc0S)
    · rcases herrat with ⟨hl, _⟩ | ⟨_, hv, _⟩ | ⟨_, _, ts, rfl, hmem, hsub⟩
      · exact absurd (Or.inl hl) (hself c hcS)
      · exact absurd (Or.inr hv) (hself c hcS)
      · exact ⟨ts, hres, List.ne_nil_of_mem hmem, hsub⟩
  · exact ⟨by rfl, by decide, by decide, by decide⟩

/-- Witness for C5's general part, at the 3-cycle `a → b → c → a`. -/
theorem C5_generic_cycle_error_witness :
    ∃ ns, sort_service_dicts cyc3 = .error (.circular ns) ∧ ns ≠ [] ∧
      ∀ t ∈ ns, t ∈ cyc3.map SDict.name := by
  refine C5_generic_cycle_error.1 cyc3 (by decide) (by decide) ?_
  refine ⟨⟨"a", ["b"], []⟩, by decide, ?_⟩
  have h1 : Relation.TransGen (DepS cyc3) ⟨"a", ["b"], []⟩ ⟨"b", ["c"], []⟩ :=
    Relation.TransGen.single ⟨by decide, by decide, by decide⟩
  have h2 : Relation.TransGen (DepS cyc3) ⟨"b", ["c"], []⟩ ⟨"c", ["a"], []⟩ :=
    Relation.TransGen.single ⟨by decide, by decide, by decide⟩
  have h3 : Relation.TransGen (DepS cyc3) ⟨"c", ["a"], []⟩ ⟨"a", ["b"], []⟩ :=
    Relation.TransGen.single ⟨by decide, by decide, by decide⟩
  exact (h1.trans h2).trans h3

/-! ## C7: determinism and the name-sorted baseline -/

theorem lexLe_total : ∀ x y : List Char, lexLe x y = true ∨ lexLe y x = true
  | [], _ => Or.inl rfl
  | _ :: _, [] => Or.inr rfl
  | c :: cs, d :: ds => by
    rw [lexLe, lexLe]
    rcases Nat.lt_trichotomy c.toNat d.toNat with h | h | h
    · left; rw [if_pos h]
    · have h1 : ¬ c.toNat < d.toNat := by omega
      have h2 : ¬ d.toNat < c.toNat := by omega
      rw [if_neg h1, if_neg h2, if_neg h2, if_neg h1]
      exact lexLe_total cs ds
    · right; rw [if_pos h]

theorem lexLe_trans :
    ∀ x y z : List Char, lexLe x y = true → lexLe y z = true → lexLe x z = true
  | [], _, _ => by intro _ _; rfl
  | c :: cs, [], _ => by intro h _; simp [lexLe] at h
  | c :: cs, d :: ds, [] => by intro _ h; simp [lexLe] at h
  | c :: cs, d :: ds, e :: es => by
    intro h1 h2
    rw [lexLe] at h1 h2 ⊢
    by_cases hcd : c.toNat < d.toNat
    · by_cases hde : d.toNat < e.toNat
      · rw [if_pos (by omega : c.toNat < e.toNat)]
      · by_cases hed : e.toNat < d.toNat
        · rw [if_neg hde, if_pos hed] at h2
          cases h2
        · rw [if_pos (by omega : c.toNat < e.toNat)]
    · by_cases hdc : d.toNat < c.toNat
      · rw [if_neg hcd, if_pos hdc] at h1
        cases h1
      · rw [if_neg hcd, if_neg hdc] at h1
        by_cases hde : d.toNat < e.toNat
        · rw [if_pos (by omega : c.toNat < e.toNat)]
        · by_cases hed : e.toNat < d.toNat
          · rw [if_neg hde, if_pos hed] at h2
            cases h2
          · rw [if_neg hde, if_neg hed] at h2
            rw [if_neg (by omega : ¬ c.toNat < e.toNat),
              if_neg (by omega : ¬ e.toNat < c.toNat)]
            exact lexLe_trans cs ds es h1 h2

theorem lexLe_antisymm :
    ∀ x y : List Char, lexLe x y = true → lexLe y x = true → x = y
  | [], [] => by intro _ _; rfl
  | [], _ :: _ => by intro _ h; simp [lexLe] at h
  | _ :: _, [] => by intro h _; simp [lexLe] at h
  | c :: cs, d :: ds => by
    intro h1 h2
    rw [lexLe] at h1 h2
    by_cases hcd : c.toNat < d.toNat
    · rw [if_neg (by omega : ¬ d.toNat < c.toNat), if_pos hcd] at h2
      cases h2
    · by_cases hdc : d.toNat < c.toNat
      · rw [if_neg hcd, if_pos hdc] at h1
        cases h1
      · rw [if_neg hcd, if_neg hdc] at h1
        rw [if_neg hdc, if_neg hcd] at h2
        have hval : c.toNat = d.toNat := by omega
        have hc : c = d := by
          apply Char.eq_of_val_eq
          apply UInt32.eq_of_val_eq
          apply Fin.eq_of_val_eq
          exact hval
        rw [hc, lexLe_antisymm cs ds h1 h2]

/-- Two name-sorted lists that are permutations of one another, with unique
names, are equal. -/
theorem sorted_perm_eq :
    ∀ (l1 l2 : List SDict), l1.Perm l2 → l1.Pairwise nameLe → l2.Pairwise nameLe →
      (l1.map SDict.name).Nodup → l1 = l2 := by
  intro l1
  induction l1 with
  | nil =>
    intro l2 hp _ _ _
    exact List.Perm.nil_eq hp
  | cons a t1 ih =>
    intro l2 hp hs1 hs2 hnd
    have haIn : a ∈ l2 := hp.subset (List.mem_cons_self _ _)
    cases l2 with
    | nil => exact absurd haIn (List.not_mem_nil a)
    | cons b t2 =>
      have hab : a = b := by
        rcases List.mem_cons.1 haIn with h | haT2
        · exact h
        · have hba : nameLe b a := (List.pairwise_cons.1 hs2).1 a haT2
          have hbIn : b ∈ a :: t1 := hp.symm.subset (List.mem_cons_self _ _)
          rcases List.mem_cons.1 hbIn with h | hbT1
          · exact h.symm
          · have hab' : nameLe a b := (List.pairwise_cons.1 hs1).1 b hbT1
            have hdata : a.name.data = b.name.data := lexLe_antisymm _ _ hab' hba
            have hnm : a.name = b.name := by
              have := congrArg String.mk hdata
              cases hna : a.name
              cases hnb : b.name
              rw [hna, hnb] at hdata
              exact congrArg String.mk hdata
            exact name_inj hnd (List.mem_cons_self _ _) hbIn hnm
      subst hab
      have hp' := hp.cons_inv
      have hnd' : (t1.map SDict.name).Nodup := (List.nodup_cons.1 hnd).2
      rw [ih t2 hp' (List.pairwise_cons.1 hs1).2 (List.pairwise_cons.1 hs2).2 hnd']

theorem erase_getLast {α : Type} [DecidableEq α] :
    ∀ (l : List α) (h : l ≠ []), l.Nodup → l.erase (l.getLast h) = l.dropLast
  | [], h, _ => absurd rfl h
  | [a], _, _ => by simp
  | a :: b :: t, _, hnd => by
    have hne : b :: t ≠ [] := by intro hh; cases hh
    rw [List.getLast_cons hne]
    rw [List.erase_cons_tail ?_]
    · rw [erase_getLast (b :: t) hne (List.nodup_cons.1 hnd).2]
      rfl
    · have hmem := List.getLast_mem hne
      have hna : a ∉ b :: t := (List.nodup_cons.1 hnd).1
      simp only [beq_iff_eq]
      intro heq
      exact hna (heq ▸ hmem)

/-- When no declaration references another, each while-loop iteration
simply moves the last unmarked declaration to the front of the output. -/
theorem sortLoop_no_deps :
    ∀ (f : Nat) (S : List SDict) (s : SortState),
      (∀ a ∈ S, ∀ b ∈ S, ¬ Dep a b) →
      (∀ x ∈ s.unmarked, x ∈ S) → s.unmarked.Nodup → s.temp = [] →
      s.unmarked.length + 1 ≤ f →
      sortLoop S f s = .ok (s.unmarked ++ s.output) := by
  intro f
  induction f with
  | zero => intro S s _ _ _ _ h; omega
  | succ f ih =>
    intro S s hnodep hsubS hnd htemp hfuel
    cases hlast : s.unmarked.getLast? with
    | none =>
      have hnil := List.getLast?_eq_none_iff.1 hlast
      simp only [sortLoop]
      rw [hlast, hnil, List.nil_append]
    | some n =>
      have hne : s.unmarked ≠ [] := by
        intro hh
        rw [hh] at hlast
        cases hlast
      have hnU : n ∈ s.unmarked := getLast?_mem_of_eq hlast
      have hnS : n ∈ S := hsubS n hnU
      have hdeps : depsOf S n = [] := by
        rw [depsOf, List.filter_eq_nil_iff]
        intro m hm
        simp only [decide_eq_true_eq]
        exact hnodep m hm n hnS
      have hgl : s.unmarked.getLast hne = n := by
        rw [List.getLast?_eq_getLast_of_ne_nil hne] at hlast
        exact Option.some_inj.1 hlast
      have her : s.unmarked.erase n = s.unmarked.dropLast := by
        rw [← hgl]
        exact erase_getLast _ hne hnd
      have hvis0 : visitF S (s.unmarked.length + 1) n s
          = .ok { unmarked := s.unmarked.erase n
                  temp := (s.temp ++ [n.name]).erase n.name
                  output := n :: s.output } := by
        simp only [visitF]
        rw [if_neg (by rw [htemp]; exact List.not_mem_nil _), if_pos hnU, hdeps]
        rfl
      have hvis : visitF S (s.unmarked.length + 1) n s
          = .ok { unmarked := s.unmarked.erase n, temp := [], output := n :: s.output } := by
        rw [hvis0, htemp, List.nil_append, List.erase_cons_head]
      simp only [sortLoop]
      rw [hlast]
      show (match visitF S (s.unmarked.length + 1) n s with
        | Except.error e => Except.error e
        | Except.ok s1 => sortLoop S f s1) = _
      rw [hvis]
      have hlen1 : 0 < s.unmarked.length := List.length_pos.2 hne
      have hforward := ih S
        { unmarked := s.unmarked.erase n, temp := [], output := n :: s.output }
        hnodep
        (fun x hx => hsubS x (List.mem_of_mem_erase hx))
        (List.Nodup.erase n hnd)
        rfl
        (by
          show (s.unmarked.erase n).length + 1 ≤ f
          rw [her, List.length_dropLast]
          omega)
      show sortLoop S f { unmarked := s.unmarked.erase n, temp := [], output := n :: s.output }
        = Except.ok (s.unmarked ++ s.output)
      rw [hforward]
      show Except.ok (s.unmarked.erase n ++ n :: s.output)
        = Except.ok (s.unmarked ++ s.output)
      rw [her]
      have hdr : s.unmarked.dropLast ++ [n] = s.unmarked := by
        rw [← hgl]
        exact List.dropLast_append_getLast hne
      rw [show s.unmarked.dropLast ++ n :: s.output
          = (s.unmarked.dropLast ++ [n]) ++ s.output from by
        rw [List.append_assoc, List.singleton_append]]
      rw [hdr]

/-- C7 counterexample: two permutations of the same declaration set (`a`
and `b` both link `c`) sort to different sequences — the output of
`sort_service_dicts` depends on the input order because the dependents of a
declaration are visited in the order of the original input list. -/
theorem C7_counterexample :
    ([sdA, sdB, sdC] : List SDict).Perm [sdB, sdA, sdC] ∧
    sort_service_dicts [sdA, sdB, sdC] = .ok [sdC, sdB, sdA] ∧
    sort_service_dicts [sdB, sdA, sdC] = .ok [sdC, sdA, sdB] ∧
    sort_service_dicts [sdA, sdB, sdC] ≠ sort_service_dicts [sdB, sdA, sdC] := by
  refine ⟨List.Perm.swap _ _ _, by rfl, by rfl, ?_⟩
  intro h
  have h1 : ([sdC, sdB, sdA] : List SDict) = [sdC, sdA, sdB] :=
    Except.ok.inj (((by rfl : sort_service_dicts [sdA, sdB, sdC]
      = .ok [sdC, sdB, sdA])).symm.trans
      (h.trans (by rfl : sort_service_dicts [sdB, sdA, sdC] = .ok [sdC, sdA, sdB])))
  exact absurd h1 (by decide)

/-- C7 (amended): when no declaration references another via links or
volumes_from (and names are unique), `sort_service_dicts` returns the input
in ascending name order — the name-sorted baseline — and is therefore
invariant under permutations of such an input.  (The general determinism
claim is refuted by `C7_counterexample`: with dependencies present, the
output can depend on the input order, because dependents are visited in
input order.) -/
theorem C7_sort_no_dependencies_amended :
    ∀ S : List SDict, (S.map SDict.name).Nodup →
      (∀ a ∈ S, ∀ b ∈ S, ¬ Dep a b) →
      sort_service_dicts S = .ok (sortByName S) ∧
      (sortByName S).Perm S ∧
      (sortByName S).Pairwise nameLe ∧
      (∀ S2, S2.Perm S → sort_service_dicts S2 = sort_service_dicts S) := by
  intro S hnames hnodep
  have hperm : (sortByName S).Perm S := List.perm_insertionSort _ _
  haveI htot : IsTotal SDict nameLe := ⟨fun a b => lexLe_total _ _⟩
  haveI htrans : IsTrans SDict nameLe := ⟨fun a b c => lexLe_trans _ _ _⟩
  have hsorted : (sortByName S).Pairwise nameLe := List.sorted_insertionSort nameLe S
  have hmain : ∀ T : List SDict, (T.map SDict.name).Nodup →
      (∀ a ∈ T, ∀ b ∈ T, ¬ Dep a b) →
      sort_service_dicts T = .ok (sortByName T) := by
    intro T hTn hTd
    have hTperm : (sortByName T).Perm T := List.perm_insertionSort _ _
    have h := sortLoop_no_deps (T.length + 1) T
      { unmarked := sortByName T, temp := [], output := [] }
      hTd
      (fun x hx => hTperm.subset hx)
      (hTperm.nodup_iff.2 (sdicts_nodup hTn))
      rfl
      (by
        show (sortByName T).length + 1 ≤ T.length + 1
        rw [hTperm.length_eq])
    rw [sort_service_dicts, h, List.append_nil]
  refine ⟨hmain S hnames hnodep, hperm, hsorted, ?_⟩
  intro S2 hp2
  have hn2 : (S2.map SDict.name).Nodup := ((hp2.map SDict.name).nodup_iff).2 hnames
  have hd2 : ∀ a ∈ S2, ∀ b ∈ S2, ¬ Dep a b := fun a ha b hb =>
    hnodep a (hp2.subset ha) b (hp2.subset hb)
  rw [hmain S2 hn2 hd2, hmain S hnames hnodep]
  have hsorted2 : (sortByName S2).Pairwise nameLe := List.sorted_insertionSort nameLe S2
  have hpp : (sortByName S2).Perm (sortByName S) :=
    (List.perm_insertionSort _ _).trans (hp2.trans hperm.symm)
  have hnds2 : ((sortByName S2).map SDict.name).Nodup :=
    (((List.perm_insertionSort nameLe S2).map SDict.name).nodup_iff).2 hn2
  rw [sorted_perm_eq (sortByName S2) (sortByName S) hpp hsorted2 hsorted hnds2]

/-- Witness for the amended C7: a two-declaration set given in descending
name order sorts to ascending name order. -/
theorem C7_sort_no_dependencies_amended_witness :
    sort_service_dicts noDepPair = .ok (sortByName noDepPair) ∧
    (sortByName noDepPair).Perm noDepPair ∧
    (sortByName noDepPair).Pairwise nameLe ∧
    (∀ S2, S2.Perm noDepPair → sort_service_dicts S2 = sort_service_dicts noDepPair) :=
  C7_sort_no_dependencies_amended noDepPair (by decide) (by decide)
